import Mathlib

/-!
Shallow embedding of the draco chart-candidate generator
(src/draco/generation/model.py and src/draco/generation/generator.py).

Python dicts are embedded as insertion-ordered association lists; Python
exceptions as an explicit error type; the ambient randomness source
(random.random / random.uniform) as a stream of rational draws indexed by
a counter that every random operation threads through.
-/

namespace Draco

/-- Values stored in a spec dictionary: strings, booleans, and nested
dictionaries (the value shapes the generation code puts into specs). -/
inductive V where
  | str : String → V
  | bool : Bool → V
  | obj : List (String × V) → V

/-- Errors modelling the Python exceptions raised by the generation code.
keyError carries the missing key; invalidProp models the ValueError
raised by mutate_prop on an unrecognized prop; emptyDomain models the
IndexError raised by Model.sample when the weight pool is empty
(cumulative[-1] on an empty array), i.e. the exhausted-domain signal;
typeError models Python TypeError on wrongly-shaped values; outOfFuel is
an artifact of the fueled recursion, never reached with adequate fuel. -/
inductive Err where
  | keyError : String → Err
  | invalidProp : Err
  | emptyDomain : Err
  | typeError : Err
  | outOfFuel : Err
  deriving DecidableEq

/-- Python dict read d[k]; dicts are embedded as insertion-ordered
association lists whose keys are unique. -/
def dictLookup {α : Type} (d : List (String × α)) (k : String) : Option α :=
  match d with
  | [] => none
  | (k', v) :: t => if k' = k then some v else dictLookup t k

/-- Python dict write d[k] = v: overwrite in place when the key exists,
otherwise append (insertion order preserved). -/
def dictInsert {α : Type} (d : List (String × α)) (k : String) (v : α) : List (String × α) :=
  match d with
  | [] => [(k, v)]
  | (k', v') :: t => if k' = k then (k', v) :: t else (k', v') :: dictInsert t k v

/-- Python del d[k] (the source only reaches it after a successful read
of the same key). -/
def dictDelete {α : Type} (d : List (String × α)) (k : String) : List (String × α) :=
  match d with
  | [] => []
  | (k', v') :: t => if k' = k then t else (k', v') :: dictDelete t k

/-- Python list(d.keys()). -/
def dictKeys {α : Type} (d : List (String × α)) : List String :=
  d.map (fun e => e.1)

/-- Python k in d. -/
def dictContains {α : Type} (d : List (String × α)) (k : String) : Bool :=
  (dictLookup d k).isSome

/-- A candidate chart specification: the top-level Python dict. -/
abbrev Spec := List (String × V)

/-- Turn an optional value into the given error when absent (a Python
access that raises when the key or index is missing). -/
def getOr {α : Type} (o : Option α) (e : Err) : Except Err α :=
  match o with
  | some v => .ok v
  | none => .error e

/-- Running cumulative sums (np.cumsum) starting from acc. -/
def cumsumFrom (acc : ℚ) : List ℚ → List ℚ
  | [] => []
  | w :: t => (acc + w) :: cumsumFrom (acc + w) t

/-- np.cumsum. -/
def cumsum (ws : List ℚ) : List ℚ := cumsumFrom 0 ws

/-- Fueled bisect-left (np.searchsorted, side left): binary search for
the insertion point of v in a within [lo, hi). hi - lo strictly
decreases every step, so any fuel at least the initial interval length
reaches the fixed point; on exhausted fuel the interval is empty and lo
is the answer. -/
def bisectGo (a : List ℚ) (v : ℚ) : Nat → Nat → Nat → Nat
  | 0, lo, _ => lo
  | fuel + 1, lo, hi =>
    if lo < hi then
      let mid := (lo + hi) / 2
      if a.getD mid 0 < v then bisectGo a v fuel (mid + 1) hi
      else bisectGo a v fuel lo mid
    else lo

/-- np.searchsorted(a, v) with the default left side. -/
def bisectLeft (a : List ℚ) (v : ℚ) : Nat :=
  bisectGo a v a.length 0 a.length

/-- Model.sample (model.py lines 168-180). u is the unit draw behind
random.uniform(0, cumulative[-1]): choice = u * total. An empty weight
pool raises (cumulative[-1] on an empty array); so does an enums list
shorter than the chosen index. -/
def sample {α : Type} (enums : List α) (probs : List ℚ) (u : ℚ) : Except Err (α × Nat) :=
  let cumulative := cumsum probs
  match cumulative.getLast? with
  | none => .error .emptyDomain
  | some total =>
    let choice := u * total
    let index0 := bisectLeft cumulative choice
    let index := if index0 = cumulative.length then index0 - 1 else index0
    match enums.get? index with
    | none => .error .emptyDomain
    | some r => .ok (r, index)

/-- Model state from Model.__init__ (model.py lines 21-44). The two prop
sets are embedded as lists recording the Python sets' iteration order
(assumed duplicate-free, as sets are); the distributions table is split
into the inclusion-probability dict and the per-prop enum and weight
lists, exactly as __init__ builds them. -/
structure Model where
  top_level_props : List String
  encoding_props : List String
  inclusion : List (String × ℚ)
  enums : List (String × List String)
  probs : List (String × List ℚ)

/-- Model.enum_probs for one prop: the dict from enum name to its weight
built pairwise from the enum and weight lists by the loop in __init__
(which assumes the two lists have equal length; a later duplicate name
overwrites an earlier one, as dict assignment does). -/
def Model.enumProbs (m : Model) (p : String) : List (String × ℚ) :=
  match dictLookup m.enums p, dictLookup m.probs p with
  | some es, some ps => (es.zip ps).foldl (fun d ep => dictInsert d ep.1 ep.2) []
  | _, _ => []

/-- Modelled from the spec: PropObjects.get_bin (prop_objects module, not
under src/) expands a bin enum name into a structured object that
unpacks back to the enum name (spec sections 3 and 6). -/
def getBin (e : String) : V := V.obj [("bin", V.str e)]

/-- Modelled from the spec: PropObjects.get_scale, as for getBin. -/
def getScale (e : String) : V := V.obj [("scale", V.str e)]

/-- Model.build_value_from_enum (model.py lines 199-204): the special
enums bin and scale are expanded, all others are the plain enum string.
Model.__sample_prop applies the same SPECIAL_ENUMS mapping. -/
def buildValueFromEnum (p e : String) : V :=
  if p = "bin" then getBin e else if p = "scale" then getScale e else V.str e

/-- Randomness source: draw i of the run. random.random() produces values
in [0, 1); random.uniform(0, c) is modelled as draw * c. The Nat counter
threaded through the definitions below counts consumed draws. -/
abbrev Rng := Nat → ℚ

/-- Model.get_enums (model.py lines 112-113): the immutable enum list for
a prop (KeyError when the prop has no distribution entry). -/
def getEnums (m : Model) (p : String) : Except Err (List String) :=
  getOr (dictLookup m.enums p) (.keyError p)

/-- The last two branches of Model.mutate_prop (model.py lines 80-90):
the encoding-prop branch, else ValueError. Note the source reads
spec[to_modify] at the TOP LEVEL of the spec dict, not inside
spec['encoding']; the embedding reproduces that read faithfully. -/
def mutatePropEnc (m : Model) (spec : Spec) (p enum : String) (rng : Rng) (k : Nat) : Except Err (Spec × Nat) :=
  if p ∈ m.encoding_props then
    match dictLookup spec "encoding" with
    | none => .error (.keyError "encoding")
    | some (V.obj encs) => do
      let used := dictKeys encs
      let probs ← used.mapM (fun c => getOr (dictLookup (m.enumProbs "channel") c) (.keyError c))
      let tm ← sample used probs (rng k)
      let enc ← getOr (dictLookup spec tm.1) (.keyError tm.1)
      match enc with
      | V.obj l =>
        .ok (dictInsert spec tm.1 (V.obj (dictInsert l p (buildValueFromEnum p enum))), k + 1)
      | _ => .error .typeError
    | some _ => .error .typeError
  else .error .invalidProp

/-- Model.mutate_prop (model.py lines 67-92). Returns the updated spec
and the rng counter; errors model the exceptions the source raises. In
the channel-rename branch the source reads and deletes spec[to_replace]
at the TOP LEVEL of the spec dict (not inside spec['encoding']); the
embedding reproduces those accesses faithfully. -/
def mutateProp (m : Model) (spec : Spec) (p enum : String) (rng : Rng) (k : Nat) : Except Err (Spec × Nat) :=
  if p ∈ m.top_level_props then
    .ok (dictInsert spec p (buildValueFromEnum p enum), k)
  else if p = "channel" then
    match dictLookup spec "encoding" with
    | none => .error (.keyError "encoding")
    | some (V.obj encs) =>
      if dictContains encs enum then mutatePropEnc m spec p enum rng k
      else do
        let used := dictKeys encs
        let probs ← used.mapM
          (fun c => getOr ((dictLookup (m.enumProbs "channel") c).map (fun q => 1 - q)) (.keyError c))
        let tr ← sample used probs (rng k)
        let enc ← getOr (dictLookup spec tr.1) (.keyError tr.1)
        let spec1 := dictDelete spec tr.1
        match dictLookup spec1 "encoding" with
        | some (V.obj l) => .ok (dictInsert spec1 "encoding" (V.obj (dictInsert l enum enc)), k + 1)
        | some _ => .error .typeError
        | none => .error (.keyError "encoding")
    | some _ => .error .typeError
  else mutatePropEnc m spec p enum rng k

/-- The per-call working copies of the enum and weight lists
(Model.__ready makes a deep copy of both tables). -/
structure Curr where
  enums : List (String × List String)
  probs : List (String × List ℚ)

/-- Model.__sample_enum (model.py lines 149-166): draw an enum for the
prop from the working pools; for the prop named channel the chosen entry
is popped from both working lists (without replacement). -/
def sampleEnum (curr : Curr) (p : String) (rng : Rng) (k : Nat) : Except Err (String × Curr × Nat) :=
  match dictLookup curr.enums p, dictLookup curr.probs p with
  | some es, some ps => do
    let r ← sample es ps (rng k)
    if p = "channel" then
      .ok (r.1, ⟨dictInsert curr.enums p (es.eraseIdx r.2), dictInsert curr.probs p (ps.eraseIdx r.2)⟩, k + 1)
    else .ok (r.1, curr, k + 1)
  | _, _ => .error (.keyError p)

/-- Model.__sample_prop (model.py lines 142-147): sample an enum and
expand it when the prop is one of the special enums. -/
def sampleProp (curr : Curr) (p : String) (rng : Rng) (k : Nat) : Except Err (V × Curr × Nat) := do
  let r ← sampleEnum curr p rng k
  .ok (buildValueFromEnum p r.1, r.2.1, r.2.2)

/-- Model.__include (model.py lines 134-140): read the prop's inclusion
probability (KeyError when absent), then flip the coin by consuming one
random.random() draw. -/
def includeProp (m : Model) (p : String) (rng : Rng) (k : Nat) : Except Err (Bool × Nat) :=
  match dictLookup m.inclusion p with
  | none => .error (.keyError p)
  | some prob => .ok (decide (rng k < prob), k + 1)

/-- Loop of Model.__generate_enc over the encoding props (in the
encoding_props set's iteration order). -/
def genEncGo (m : Model) (rng : Rng) : List String → List (String × V) → Curr → Nat → Except Err (List (String × V) × Curr × Nat)
  | [], enc, curr, k => .ok (enc, curr, k)
  | p :: t, enc, curr, k => do
    let i ← includeProp m p rng k
    if i.1 then do
      let r ← sampleProp curr p rng i.2
      genEncGo m rng t (dictInsert enc p r.1) r.2.1 r.2.2
    else genEncGo m rng t enc curr i.2

/-- Model.__generate_enc (model.py lines 122-132). -/
def genEnc (m : Model) (rng : Rng) (curr : Curr) (k : Nat) : Except Err (List (String × V) × Curr × Nat) :=
  genEncGo m rng m.encoding_props [] curr k

/-- Top-level-prop loop of Model.generate_spec (model.py lines 55-57). -/
def topLoop (m : Model) (rng : Rng) : List String → Spec → Curr → Nat → Except Err (Spec × Curr × Nat)
  | [], spec, curr, k => .ok (spec, curr, k)
  | p :: t, spec, curr, k => do
    let i ← includeProp m p rng k
    if i.1 then do
      let r ← sampleProp curr p rng i.2
      topLoop m rng t (dictInsert spec p r.1) r.2.1 r.2.2
    else topLoop m rng t spec curr i.2

/-- Encoding loop of Model.generate_spec (model.py lines 59-63): build
one encoding, then draw a channel — __sample_prop('channel') returns the
enum unchanged since channel is not a special enum, while consuming the
entry from the working channel pool — and store the encoding under that
channel key. -/
def dimsLoop (m : Model) (rng : Rng) : Nat → Spec → Curr → Nat → Except Err (Spec × Curr × Nat)
  | 0, spec, curr, k => .ok (spec, curr, k)
  | n + 1, spec, curr, k => do
    let e ← genEnc m rng curr k
    let c ← sampleEnum e.2.1 "channel" rng e.2.2
    match dictLookup spec "encoding" with
    | some (V.obj l) =>
      dimsLoop m rng n (dictInsert spec "encoding" (V.obj (dictInsert l c.1 (V.obj e.1)))) c.2.1 c.2.2
    | some _ => .error .typeError
    | none => .error (.keyError "encoding")

/-- Model.generate_spec (model.py lines 46-65), starting at rng counter
k: make fresh working copies (__ready), start from a spec holding an
empty encoding dict, run the top-level-prop loop, then the encoding
loop. -/
def generateSpec (m : Model) (rng : Rng) (n : Nat) (k : Nat) : Except Err (Spec × Nat) := do
  let curr0 : Curr := ⟨m.enums, m.probs⟩
  let spec0 : Spec := [("encoding", V.obj [])]
  let t ← topLoop m rng m.top_level_props spec0 curr0 k
  let d ← dimsLoop m rng n t.1 t.2.1 t.2.2
  .ok (d.1, d.2.2)

/-- Python truth of membership of a spec value in a list of strings
(a non-string value compares unequal to every string). -/
def vMemStr (v : V) (l : List String) : Bool :=
  match v with
  | V.str s => l.contains s
  | _ => false

/-- Python equality of a spec value with a string literal. -/
def vEqStr (v : V) (s : String) : Bool :=
  match v with
  | V.str t => t == s
  | _ => false

/-- Improvements.improve_aggregate (model.py lines 213-235): only for
bar, line or area marks; a coin decides whether to skip; when exactly
one of the x and y encodings is quantitative, that one gets
aggregate = mean (written back through the shared encoding dict). -/
def improveAggregate (rng : Rng) (spec : Spec) (k : Nat) : Except Err (Spec × Nat) :=
  match dictLookup spec "mark" with
  | none => .error (.keyError "mark")
  | some mark =>
    if ¬ vMemStr mark ["bar", "line", "area"] then .ok (spec, k)
    else if rng k < (1 : ℚ) / 2 then .ok (spec, k + 1)
    else
      match dictLookup spec "encoding" with
      | none => .error (.keyError "encoding")
      | some (V.obj encs) =>
        match dictLookup encs "x", dictLookup encs "y" with
        | some (V.obj xl), some (V.obj yl) => do
          let xt ← getOr (dictLookup xl "type") (.keyError "type")
          let yt ← getOr (dictLookup yl "type") (.keyError "type")
          if (!(vEqStr xt "quantitative")) != (!(vEqStr yt "quantitative")) then
            if vEqStr xt "quantitative" then
              .ok (dictInsert spec "encoding" (V.obj (dictInsert encs "x" (V.obj (dictInsert xl "aggregate" (V.str "mean"))))), k + 1)
            else
              .ok (dictInsert spec "encoding" (V.obj (dictInsert encs "y" (V.obj (dictInsert yl "aggregate" (V.str "mean"))))), k + 1)
          else .ok (spec, k + 1)
        | some _, some _ => .error .typeError
        | _, _ => .ok (spec, k + 1)
      | some _ => .error .typeError

/-- Improvements.improve_bar (model.py lines 237-246): a rect mark gets
a top-level scale requesting a zero baseline. -/
def improveBar (spec : Spec) : Except Err Spec :=
  match dictLookup spec "mark" with
  | none => .error (.keyError "mark")
  | some mark =>
    if vEqStr mark "rect" then .ok (dictInsert spec "scale" (V.obj [("zero", V.bool true)]))
    else .ok spec

/-- Model.improve (model.py lines 94-110): the source discovers the
function-valued attributes of Improvements through dir(), which lists
names alphabetically, so the pass applies improve_aggregate and then
improve_bar, in that fixed order. -/
def improve (rng : Rng) (spec : Spec) (k : Nat) : Except Err (Spec × Nat) := do
  let a ← improveAggregate rng spec k
  let s2 ← improveBar a.1
  .ok (s2, a.2)

/-- The initial per-type counters of Generator.__populate_field_names. -/
def counts0 : List (String × Nat) := [("n", 1), ("o", 1), ("q", 1), ("t", 1)]

/-- Loop of Generator.__populate_field_names over the encoding entries in
dict (insertion) order: field = first letter of the type followed by the
per-letter counter, which then increments. -/
def popGo (counts : List (String × Nat)) : List (String × V) → Except Err (List (String × V))
  | [] => .ok []
  | (ch, e) :: t =>
    match e with
    | V.obj enc =>
      match dictLookup enc "type" with
      | some (V.str ty) =>
        let ft := ty.take 1
        match dictLookup counts ft with
        | some c => do
          let rest ← popGo (dictInsert counts ft (c + 1)) t
          .ok ((ch, V.obj (dictInsert enc "field" (V.str (ft ++ toString c)))) :: rest)
        | none => .error (.keyError ft)
      | some _ => .error .typeError
      | none => .error (.keyError "type")
    | _ => .error .typeError

/-- Generator.__populate_field_names (generator.py lines 45-58). -/
def populateFieldNames (spec : Spec) : Except Err Spec :=
  match dictLookup spec "encoding" with
  | some (V.obj encs) => do
    let encs1 ← popGo counts0 encs
    .ok (dictInsert spec "encoding" (V.obj encs1))
  | some _ => .error .typeError
  | none => .error (.keyError "encoding")

/-- Modelled from the spec: Query.from_vegalite (draco.spec, not under
src/) converts a spec into the external query representation (toQuery,
spec section 6); modelled as a snapshot of the spec value at conversion
time. -/
structure Query where
  s : Spec

/-- Modelled from the spec: the conversion itself (spec section 6). -/
def toQuery (s : Spec) : Query := ⟨s⟩

/-- Leaf block of Generator.__mutate_spec (generator.py lines 28-34):
assign field names, take the query snapshot, then run the improvement
pass. Returns the improved spec, the query handed to the validity
oracle, and the rng counter. -/
def finalizeLeaf (rng : Rng) (base : Spec) (k : Nat) : Except Err (Spec × Query × Nat) := do
  let s1 ← populateFieldNames base
  let q := toQuery s1
  let i ← improve rng s1 k
  .ok (i.1, q, i.2)

/-- Heap of mutable Python list objects for the props lists: a list
object is a slot in the store, identified by its index. -/
structure Store where
  lists : List (List String)

/-- Read the list object in slot r. -/
def readList (st : Store) (r : Nat) : List String := st.lists.getD r []

/-- Overwrite the list object in slot r. -/
def writeList (st : Store) (r : Nat) (xs : List String) : Store := ⟨st.lists.set r xs⟩

/-- State threaded through Generator.__mutate_spec: the props-list
store, the output accumulator specs, the number of leaf finalizations
entered, and the rng counter. -/
structure MSt where
  store : Store
  specs : List Spec
  leaves : Nat
  k : Nat

/-- Generator.__mutate_spec (generator.py lines 27-43). The props list
is accessed through the store: props.pop(0) writes the tail back into
the SAME slot, and every recursive call receives that same slot —
exactly as the source passes one shared list object down the recursion.
valid is the external validity oracle (is_valid over Task(data, query)
with the generator's fixed data schema folded in; spec section 6).
deepcopy(base_spec) is the identity on the embedded spec values. Fuel
bounds the recursion depth; it is never exhausted when it exceeds the
props-list length. -/
def mutateSpecGo (m : Model) (valid : Query → Bool) (rng : Rng) : Nat → Spec → Nat → MSt → Except Err MSt
  | 0, _, _, _ => .error .outOfFuel
  | fuel + 1, base, ref, st =>
    match readList st.store ref with
    | [] => do
      let f ← finalizeLeaf rng base st.k
      .ok { st with
              specs := if valid f.2.1 then st.specs ++ [f.1] else st.specs,
              leaves := st.leaves + 1,
              k := f.2.2 }
    | p :: rest => do
      let st1 : MSt := { st with store := writeList st.store ref rest }
      let es ← getEnums m p
      es.foldlM
        (fun acc e => do
          let r ← mutateProp m base p e rng acc.k
          mutateSpecGo m valid rng fuel r.1 ref { acc with k := r.2 })
        st1

/-- Generator.generate_interaction (generator.py lines 19-24). The
caller's props list lives in slot callerRef of store0; props.copy()
allocates a fresh slot holding the same elements, and the recursion runs
on that fresh slot. Returns the final store, the accepted specs, the
number of leaf finalizations, and the rng counter (the Python method
returns only the specs; the rest is the modelled heap and randomness
state). -/
def generateInteraction (m : Model) (valid : Query → Bool) (rng : Rng) (dims : Nat) (callerRef : Nat) (store0 : Store) : Except Err (Store × List Spec × Nat × Nat) := do
  let b ← generateSpec m rng dims 0
  let props := readList store0 callerRef
  let copyRef := store0.lists.length
  let store1 : Store := ⟨store0.lists ++ [props]⟩
  let st ← mutateSpecGo m valid rng (props.length + 1) b.1 copyRef ⟨store1, [], 0, b.2⟩
  .ok (st.store, st.specs, st.leaves, st.k)

/-- Test fixture: a model whose channel distribution lists x and y and
whose only encoding prop is type (channel itself is in neither prop
set). -/
def chanTypeModel : Model :=
  { top_level_props := []
  , encoding_props := ["type"]
  , inclusion := [("channel", 1), ("type", 1)]
  , enums := [("channel", ["x", "y"]), ("type", ["quantitative", "ordinal"])]
  , probs := [("channel", [3/5, 2/5]), ("type", [1, 1])] }

/-- Test fixture: a spec whose encoding map uses the single channel x. -/
def xOnlySpec : Spec :=
  [("encoding", V.obj [("x", V.obj [("type", V.str "quantitative")])])]

/-- Test fixture: a model with two top-level props of two enum values
each, both with inclusion probability zero. -/
def twoPropModel : Model :=
  { top_level_props := ["mark", "mark2"]
  , encoding_props := []
  , inclusion := [("mark", 0), ("mark2", 0)]
  , enums := [("mark", ["bar", "point"]), ("mark2", ["square", "circle"])]
  , probs := [("mark", [1/2, 1/2]), ("mark2", [1/2, 1/2])] }

/-- Test fixture: a finalization-ready spec with a rect mark and an
empty encoding map. -/
def rectSpec : Spec := [("mark", V.str "rect"), ("encoding", V.obj [])]

/-- Test fixture: a model with exactly two channel enum values and no
other props. -/
def twoChannelModel : Model :=
  { top_level_props := []
  , encoding_props := []
  , inclusion := [("channel", 1)]
  , enums := [("channel", ["x", "y"])]
  , probs := [("channel", [1/2, 1/2])] }

/-- Test fixture: a model that declares channel as a top-level prop. -/
def chanTLModel : Model :=
  { top_level_props := ["channel"]
  , encoding_props := []
  , inclusion := [("channel", 1)]
  , enums := [("channel", ["x", "y"])]
  , probs := [("channel", [1/2, 1/2])] }

/-- Test fixture: a spec with three typed encodings (two quantitative,
one nominal) for field-name assignment. -/
def threeEncSpec : Spec :=
  [("encoding", V.obj
    [ ("x", V.obj [("type", V.str "quantitative")])
    , ("y", V.obj [("type", V.str "quantitative")])
    , ("color", V.obj [("type", V.str "nominal")]) ])]

/-- Well-formedness of one prop's distribution entries: an inclusion
probability is declared, and the enum and weight lists exist, have equal
length and are non-empty (the configuration invariant of spec section
7). -/
def WfProp (m : Model) (p : String) : Prop :=
  (dictLookup m.inclusion p).isSome = true ∧
  ∃ es ps, dictLookup m.enums p = some es ∧ dictLookup m.probs p = some ps ∧
    es.length = ps.length ∧ 0 < es.length

/-- The working pools agree with the model tables away from the channel
prop and hold the given channel enum and weight pools. -/
def CurrAgrees (m : Model) (curr : Curr) (pool : List String) (pprobs : List ℚ) : Prop :=
  (∀ p, p ≠ "channel" → dictLookup curr.enums p = dictLookup m.enums p) ∧
  (∀ p, p ≠ "channel" → dictLookup curr.probs p = dictLookup m.probs p) ∧
  dictLookup curr.enums "channel" = some pool ∧
  dictLookup curr.probs "channel" = some pprobs

/-- The type code Generator.__populate_field_names derives for one
encoding entry: the first letter of its type string (none when the entry
is not an object carrying a string type). -/
def encTypeCode (v : V) : Option String :=
  match v with
  | V.obj enc =>
    match dictLookup enc "type" with
    | some (V.str ty) => some (ty.take 1)
    | _ => none
  | _ => none

section Theorems

/-- Destructuring a successful Except bind. -/
theorem exBindOk {α β : Type} {x : Except Err α} {f : α → Except Err β} {b : β}
    (h : x >>= f = Except.ok b) : ∃ a, x = Except.ok a ∧ f a = Except.ok b := by
  cases x with
  | ok a => exact ⟨a, rfl, h⟩
  | error e => exact absurd h (by simp [Bind.bind, Except.bind])

/-- C1: the claim says the number of leaf finalizations in
generate_interaction equals the product of the get_enums sizes over the
property list. The code shares one props-list object across sibling
recursive calls (props.pop(0) with no copy in __mutate_spec), so after
the first enum value of the first property has been fully expanded, the
remaining branches see an already-emptied list: with two properties of
two enum values each (and dimension count 0), leaf finalization runs 3
times, not 2 * 2 = 4. This theorem evaluates the embedded code on that
input. -/
theorem c1_leaf_count_is_three_not_four :
    (generateInteraction twoPropModel (fun _ => true) (fun _ => 1) 0 0 ⟨[["mark", "mark2"]]⟩).map
        (fun r => r.2.2.1) = Except.ok 3
      ∧ (getEnums twoPropModel "mark").map List.length = Except.ok 2
      ∧ (getEnums twoPropModel "mark2").map List.length = Except.ok 2 :=
  ⟨by with_unfolding_all rfl, rfl, rfl⟩

/-- C2: the claim says mutating channel to an unused enum value moves the
chosen channel's encoding to the new key with no error. The code instead
reads spec[to_replace] at the top level of the spec dict (model.py line
77), where channel names are not keys, so the call raises KeyError. On a
spec whose only used channel is x, renaming to y fails with KeyError x
instead of moving the encoding. -/
theorem c2_channel_rename_raises_keyerror :
    mutateProp chanTypeModel xOnlySpec "channel" "y" (fun _ => 0) 0
      = Except.error (Err.keyError "x") := by with_unfolding_all rfl

/-- C3: the claim says mutating an encoding-level property sets it on the
sampled channel's encoding with no error. The code reads spec[to_modify]
at the top level of the spec dict (model.py line 87), where channel names
are not keys, so the call raises KeyError. On a spec whose only used
channel is x, mutating the type prop fails with KeyError x instead of
updating the encoding. -/
theorem c3_encoding_prop_raises_keyerror :
    mutateProp chanTypeModel xOnlySpec "type" "ordinal" (fun _ => 0) 0
      = Except.error (Err.keyError "x") := by with_unfolding_all rfl

/-- C5 counterexample: the claim says mutating channel to an enum value
that is already a used channel key leaves the spec unchanged (a no-op).
The code merely skips the rename branch and falls through: with channel
in neither prop set it raises ValueError (invalid prop), so the call
does not complete as a no-op. -/
theorem c5_used_channel_raises_invalid_prop :
    mutateProp chanTypeModel xOnlySpec "channel" "x" (fun _ => 0) 0
      = Except.error Err.invalidProp := by with_unfolding_all rfl

/-- C4 counterexample: the claim says the Improvements pass runs before
the spec is converted into the query, so the oracle judges the improved
spec. In the code the query snapshot is taken before improve (generator.py
lines 30-32): on a rect-mark leaf the improved spec carries the
zero-baseline scale but the query handed to the oracle does not, so the
query differs from the conversion of the improved spec. -/
theorem c4_query_taken_before_improvements :
    (finalizeLeaf (fun _ => 1) rectSpec 0).toOption.map
        (fun r => (dictLookup r.2.1.s "scale", dictLookup (toQuery r.1).s "scale"))
      = some ((none : Option V), some (V.obj [("zero", V.bool true)]))
      ∧ (none : Option V) ≠ some (V.obj [("zero", V.bool true)]) :=
  ⟨by with_unfolding_all rfl, by simp⟩

/-- C4 (amended): in leaf finalization the query handed to the validity
oracle is the conversion of the finalized, field-named spec taken BEFORE
the Improvements pass runs (the emitted spec is the improved one). -/
theorem c4_amended_query_is_preimprovement_spec (rng : Rng) (base : Spec) (k : Nat)
    (r : Spec × Query × Nat) (h : finalizeLeaf rng base k = Except.ok r) :
    populateFieldNames base = Except.ok r.2.1.s := by
  unfold finalizeLeaf at h
  obtain ⟨s1, hs1, h⟩ := exBindOk h
  obtain ⟨i, hi, h⟩ := exBindOk h
  simp only [Except.ok.injEq] at h
  subst h
  exact hs1

theorem c4_amended_witness :
    populateFieldNames rectSpec
      = Except.ok (( [("mark", V.str "rect"), ("encoding", V.obj []), ("scale", V.obj [("zero", V.bool true)])],
                     (⟨[("mark", V.str "rect"), ("encoding", V.obj [])]⟩ : Query), 0)
                   : Spec × Query × Nat).2.1.s :=
  c4_amended_query_is_preimprovement_spec (fun _ => 1) rectSpec 0 _ (by with_unfolding_all rfl)

theorem cumsumFrom_length (acc : ℚ) (l : List ℚ) : (cumsumFrom acc l).length = l.length := by
  induction l generalizing acc with
  | nil => rfl
  | cons w t ih => simp [cumsumFrom, ih]

theorem cumsum_length (l : List ℚ) : (cumsum l).length = l.length :=
  cumsumFrom_length 0 l

theorem bisectGo_le (a : List ℚ) (v : ℚ) :
    ∀ fuel lo hi, lo ≤ hi → bisectGo a v fuel lo hi ≤ hi := by
  intro fuel
  induction fuel with
  | zero => intro lo hi h; exact h
  | succ f ih =>
    intro lo hi h
    unfold bisectGo
    split
    · show (if a.getD ((lo + hi) / 2) 0 < v then bisectGo a v f ((lo + hi) / 2 + 1) hi
        else bisectGo a v f lo ((lo + hi) / 2)) ≤ hi
      split
      · exact ih _ _ (by omega)
      · exact le_trans (ih _ _ (by omega)) (by omega)
    · exact h

theorem bisectLeft_le (a : List ℚ) (v : ℚ) : bisectLeft a v ≤ a.length :=
  bisectGo_le a v a.length 0 a.length (Nat.zero_le _)

/-- Model.sample succeeds with an in-range index whenever the weight
list is non-empty and the value list at least as long; the result is
the value at the returned index. -/
theorem sample_ok {α : Type} (vs : List α) (ps : List ℚ) (u : ℚ)
    (hne : ps ≠ []) (hlen : ps.length ≤ vs.length) :
    ∃ r i, sample vs ps u = Except.ok (r, i) ∧ i < ps.length ∧ vs.get? i = some r := by
  have hcl : (cumsum ps).length = ps.length := cumsum_length ps
  have hplen : 0 < ps.length := List.length_pos.mpr hne
  have hcne : cumsum ps ≠ [] := by
    intro h
    rw [h] at hcl
    simp at hcl
    omega
  obtain ⟨total, htot⟩ : ∃ total, (cumsum ps).getLast? = some total := by
    cases hc : cumsum ps with
    | nil => exact absurd hc hcne
    | cons a t => exact ⟨(a :: t).getLast (by simp), List.getLast?_eq_getLast _ _⟩
  have hb : bisectLeft (cumsum ps) (u * total) ≤ (cumsum ps).length :=
    bisectLeft_le _ _
  have hilt :
      (if bisectLeft (cumsum ps) (u * total) = (cumsum ps).length then
          bisectLeft (cumsum ps) (u * total) - 1
        else bisectLeft (cumsum ps) (u * total)) < ps.length := by
    split <;> omega
  have hr :
      vs.get? (if bisectLeft (cumsum ps) (u * total) = (cumsum ps).length then
          bisectLeft (cumsum ps) (u * total) - 1
        else bisectLeft (cumsum ps) (u * total))
        = some (vs.get ⟨_, lt_of_lt_of_le hilt hlen⟩) :=
    List.get?_eq_get _
  refine ⟨_, _, ?_, hilt, hr⟩
  unfold sample
  simp only [htot, hr]

/-- C8: for a non-empty value list with equally many weights, all
non-negative and at least one positive, Model.sample returns an index in
[0, len(values)) together with the value at that index; the unit draw u
ranges over [0, 1], and u = 1 is the boundary case where
random.uniform(0, total) lands exactly on the total weight. -/
theorem c8_sample_index_in_range {α : Type} (vs : List α) (ps : List ℚ) (u : ℚ)
    (hne : vs ≠ []) (hlen : vs.length = ps.length)
    (hnn : ∀ w ∈ ps, 0 ≤ w) (hpos : ∃ w ∈ ps, 0 < w)
    (hu0 : 0 ≤ u) (hu1 : u ≤ 1) :
    ∃ r i, sample vs ps u = Except.ok (r, i) ∧ i < vs.length ∧ vs.get? i = some r := by
  have hpne : ps ≠ [] := by
    intro h
    apply hne
    rw [h] at hlen
    simpa using List.length_eq_zero.mp (by simpa using hlen)
  obtain ⟨r, i, hs, hi, hg⟩ := sample_ok vs ps u hpne (le_of_eq hlen.symm)
  exact ⟨r, i, hs, by omega, hg⟩

theorem c8_witness :
    (["a", "b"] : List String) ≠ [] ∧
      ∃ r i, sample (["a", "b"] : List String) [(1 : ℚ)/2, 1/2] 1 = Except.ok (r, i)
        ∧ i < (["a", "b"] : List String).length
        ∧ (["a", "b"] : List String).get? i = some r :=
  ⟨by simp,
    c8_sample_index_in_range ["a", "b"] [(1 : ℚ)/2, 1/2] 1 (by simp) rfl
      (by norm_num) (by norm_num) (by norm_num) (by norm_num)⟩

theorem dictLookup_insert_self {α : Type} (d : List (String × α)) (k : String) (v : α) :
    dictLookup (dictInsert d k v) k = some v := by
  induction d with
  | nil => simp [dictInsert, dictLookup]
  | cons e t ih =>
    obtain ⟨k', v'⟩ := e
    by_cases h : k' = k
    · subst h
      simp [dictInsert, dictLookup]
    · simp [dictInsert, dictLookup, h, ih]

theorem dictLookup_insert_ne {α : Type} (d : List (String × α)) (k k' : String) (v : α)
    (h : k' ≠ k) : dictLookup (dictInsert d k v) k' = dictLookup d k' := by
  have h' : ¬ k = k' := fun hh => h hh.symm
  induction d with
  | nil => simp [dictInsert, dictLookup, h']
  | cons e t ih =>
    obtain ⟨k'', v''⟩ := e
    by_cases h2 : k'' = k
    · subst h2
      simp [dictInsert, dictLookup, h']
    · by_cases h3 : k'' = k'
      · subst h3
        simp [dictInsert, dictLookup, h2]
      · simp [dictInsert, dictLookup, h2, h3, ih]

theorem dictLookup_isSome_of_mem_keys {α : Type} (d : List (String × α)) (k : String)
    (h : k ∈ dictKeys d) : (dictLookup d k).isSome := by
  induction d with
  | nil => simp [dictKeys] at h
  | cons e t ih =>
    obtain ⟨k', v'⟩ := e
    by_cases h2 : k' = k
    · simp [dictLookup, h2]
    · simp only [dictKeys, List.map_cons, List.mem_cons] at h
      rcases h with h | h
      · exact absurd h.symm h2
      · simpa [dictLookup, h2] using ih h

theorem sample_eq_get {α : Type} {vs : List α} {ps : List ℚ} {u : ℚ} {r : α} {i : Nat}
    (h : sample vs ps u = Except.ok (r, i)) : vs.get? i = some r := by
  unfold sample at h
  cases hl : (cumsum ps).getLast? with
  | none =>
    simp only [hl] at h
    exact Except.noConfusion h
  | some total =>
    simp only [hl] at h
    cases hg : vs.get? (if bisectLeft (cumsum ps) (u * total) = (cumsum ps).length then
        bisectLeft (cumsum ps) (u * total) - 1 else bisectLeft (cumsum ps) (u * total)) with
    | none =>
      simp only [hg] at h
      exact Except.noConfusion h
    | some r' =>
      simp only [hg, Except.ok.injEq, Prod.mk.injEq] at h
      obtain ⟨h1, h2⟩ := h
      rw [← h2, hg, h1]

theorem popGo_spec :
    ∀ (encs : List (String × V)) (codes : List String) (counts : List (String × Nat))
      (cnt : String → Nat),
    encs.map (fun e => encTypeCode e.2) = codes.map some →
    (∀ c ∈ codes, dictLookup counts c = some (cnt c)) →
    ∃ out, popGo counts encs = Except.ok out ∧
      out.map (fun e => e.1) = encs.map (fun e => e.1) ∧
      out.length = encs.length ∧
      ∀ i, i < encs.length →
        ∃ enc, (out.getD i ("", V.obj [])).2 = V.obj enc ∧
          dictLookup enc "field"
            = some (V.str (codes.getD i "" ++
                toString (cnt (codes.getD i "") + (codes.take i).count (codes.getD i ""))))
  | [], codes, counts, cnt, hmap, hcnt => by
    have hc : codes = [] := by
      cases codes with
      | nil => rfl
      | cons c cs => simp at hmap
    subst hc
    exact ⟨[], rfl, rfl, rfl, fun i hi => absurd hi (by simp)⟩
  | (ch, v) :: t, codes, counts, cnt, hmap, hcnt => by
    cases codes with
    | nil => simp at hmap
    | cons c0 cs =>
      simp only [List.map_cons, List.cons.injEq] at hmap
      obtain ⟨hc0, hrest⟩ := hmap
      cases v with
      | str s => simp [encTypeCode] at hc0
      | bool b => simp [encTypeCode] at hc0
      | obj enc =>
        simp only [encTypeCode] at hc0
        cases hty : dictLookup enc "type" with
        | none =>
          rw [hty] at hc0
          simp at hc0
        | some tv =>
          rw [hty] at hc0
          cases tv with
          | bool b => simp at hc0
          | obj o => simp at hc0
          | str ty =>
            simp only [Option.some.injEq] at hc0
            subst hc0
            have hcc0 : dictLookup counts (ty.take 1) = some (cnt (ty.take 1)) :=
              hcnt (ty.take 1) (by simp)
            have hcnt' : ∀ c ∈ cs,
                dictLookup (dictInsert counts (ty.take 1) (cnt (ty.take 1) + 1)) c
                  = some (cnt c + if c = ty.take 1 then 1 else 0) := by
              intro c hcmem
              by_cases hceq : c = ty.take 1
              · subst hceq
                simp [dictLookup_insert_self]
              · rw [dictLookup_insert_ne _ _ _ _ hceq, if_neg hceq, Nat.add_zero]
                exact hcnt c (by simp [hcmem])
            obtain ⟨out, hout, hkeys, hlen, hfield⟩ :=
              popGo_spec t cs (dictInsert counts (ty.take 1) (cnt (ty.take 1) + 1))
                (fun c => cnt c + if c = ty.take 1 then 1 else 0) hrest hcnt'
            refine ⟨(ch, V.obj (dictInsert enc "field"
                (V.str (ty.take 1 ++ toString (cnt (ty.take 1)))))) :: out, ?_, ?_, ?_, ?_⟩
            · unfold popGo
              simp only [hty, hcc0, hout]
              rfl
            · simp [hkeys]
            · simp [hlen]
            · intro i hi
              cases i with
              | zero =>
                refine ⟨dictInsert enc "field" (V.str (ty.take 1 ++ toString (cnt (ty.take 1)))),
                  rfl, ?_⟩
                simp [dictLookup_insert_self]
              | succ j =>
                have hj : j < t.length := by simpa using Nat.lt_of_succ_lt_succ hi
                obtain ⟨enc', he1, he2⟩ := hfield j hj
                refine ⟨enc', by simpa using he1, ?_⟩
                rw [he2]
                have harg : (cnt (cs.getD j "") + if cs.getD j "" = ty.take 1 then 1 else 0)
                    + (cs.take j).count (cs.getD j "")
                    = cnt (cs.getD j "")
                      + ((ty.take 1 :: cs).take (j + 1)).count (cs.getD j "") := by
                  rw [List.take_succ_cons, List.count_cons]
                  simp only [beq_iff_eq]
                  by_cases hq : cs.getD j "" = ty.take 1
                  · rw [hq]
                    simp only [if_pos rfl]
                    omega
                  · simp only [if_neg hq, if_neg (Ne.symm hq)]
                    omega
                simp only [List.getD_cons_succ]
                rw [← harg]

/-- C9: field-name assignment in leaf finalization is a deterministic
function of the encoding map's key order and the entries' types: walking
the encoding map in order with one counter per type letter starting at
1, every entry receives field = first letter of its type followed by the
counter, i.e. entry i gets code_i followed by 1 + (number of earlier
entries with the same code). Structurally identical encoding maps (same
key order, same types) therefore always receive identical field names,
since the formula depends only on the list of type codes. -/
theorem c9_field_names (spec : Spec) (encs : List (String × V)) (codes : List String)
    (henc : dictLookup spec "encoding" = some (V.obj encs))
    (hcodes : encs.map (fun e => encTypeCode e.2) = codes.map some)
    (hvalid : ∀ c ∈ codes, c ∈ (["n", "o", "q", "t"] : List String)) :
    ∃ out, populateFieldNames spec = Except.ok (dictInsert spec "encoding" (V.obj out)) ∧
      out.map (fun e => e.1) = encs.map (fun e => e.1) ∧
      out.length = encs.length ∧
      ∀ i, i < encs.length →
        ∃ enc, (out.getD i ("", V.obj [])).2 = V.obj enc ∧
          dictLookup enc "field"
            = some (V.str (codes.getD i "" ++
                toString (1 + (codes.take i).count (codes.getD i "")))) := by
  have hcnt : ∀ c ∈ codes, dictLookup counts0 c = some ((fun _ => 1) c) := by
    intro c hc
    have := hvalid c hc
    simp only [List.mem_cons, List.not_mem_nil, or_false] at this
    rcases this with rfl | rfl | rfl | rfl <;> rfl
  obtain ⟨out, hout, hkeys, hlen, hfield⟩ := popGo_spec encs codes counts0 (fun _ => 1) hcodes hcnt
  refine ⟨out, ?_, hkeys, hlen, hfield⟩
  unfold populateFieldNames
  simp only [henc, hout]
  rfl

theorem c9_witness :
    dictLookup threeEncSpec "encoding" = some (V.obj
      [ ("x", V.obj [("type", V.str "quantitative")])
      , ("y", V.obj [("type", V.str "quantitative")])
      , ("color", V.obj [("type", V.str "nominal")]) ]) ∧
    ∃ out, populateFieldNames threeEncSpec
        = Except.ok (dictInsert threeEncSpec "encoding" (V.obj out)) ∧
      out.map (fun e => e.1) = (
        [ ("x", V.obj [("type", V.str "quantitative")])
        , ("y", V.obj [("type", V.str "quantitative")])
        , ("color", V.obj [("type", V.str "nominal")]) ] : List (String × V)).map (fun e => e.1) ∧
      out.length = (
        [ ("x", V.obj [("type", V.str "quantitative")])
        , ("y", V.obj [("type", V.str "quantitative")])
        , ("color", V.obj [("type", V.str "nominal")]) ] : List (String × V)).length ∧
      ∀ i, i < (
        [ ("x", V.obj [("type", V.str "quantitative")])
        , ("y", V.obj [("type", V.str "quantitative")])
        , ("color", V.obj [("type", V.str "nominal")]) ] : List (String × V)).length →
        ∃ enc, (out.getD i ("", V.obj [])).2 = V.obj enc ∧
          dictLookup enc "field"
            = some (V.str ((["q", "q", "n"] : List String).getD i "" ++
                toString (1 + ((["q", "q", "n"] : List String).take i).count
                  ((["q", "q", "n"] : List String).getD i "")))) :=
  ⟨rfl, c9_field_names threeEncSpec _ ["q", "q", "n"] rfl rfl (by decide)⟩

theorem exBind_ok {α β : Type} (a : α) (f : α → Except Err β) :
    (Except.ok a >>= f) = f a := rfl

theorem exBind_err {α β : Type} (e : Err) (f : α → Except Err β) :
    ((Except.error e : Except Err α) >>= f) = Except.error e := rfl

theorem sampleEnum_ne_channel_ok (m : Model) (curr : Curr) (p : String) (rng : Rng) (k : Nat)
    (pool : List String) (pprobs : List ℚ)
    (hca : CurrAgrees m curr pool pprobs) (hp : p ≠ "channel") (hwf : WfProp m p) :
    ∃ e, sampleEnum curr p rng k = Except.ok (e, curr, k + 1) := by
  obtain ⟨hinc, es, ps, hes, hps, hlen, hpos⟩ := hwf
  have hces : dictLookup curr.enums p = some es := by rw [hca.1 p hp, hes]
  have hcps : dictLookup curr.probs p = some ps := by rw [hca.2.1 p hp, hps]
  have hpne : ps ≠ [] := by
    intro h
    have h0 : es.length = 0 := by rw [hlen, h]; rfl
    omega
  obtain ⟨r, i, hs, hi, hg⟩ := sample_ok es ps (rng k) hpne (le_of_eq hlen.symm)
  refine ⟨r, ?_⟩
  unfold sampleEnum
  simp only [hces, hcps, hs, exBind_ok]
  rw [if_neg hp]

theorem sampleProp_ne_channel_ok (m : Model) (curr : Curr) (p : String) (rng : Rng) (k : Nat)
    (pool : List String) (pprobs : List ℚ)
    (hca : CurrAgrees m curr pool pprobs) (hp : p ≠ "channel") (hwf : WfProp m p) :
    ∃ v, sampleProp curr p rng k = Except.ok (v, curr, k + 1) := by
  obtain ⟨e, he⟩ := sampleEnum_ne_channel_ok m curr p rng k pool pprobs hca hp hwf
  refine ⟨buildValueFromEnum p e, ?_⟩
  unfold sampleProp
  simp only [he, exBind_ok]

theorem genEncGo_ok (m : Model) (rng : Rng) (pool : List String) (pprobs : List ℚ) :
    ∀ (props : List String) (enc0 : List (String × V)) (curr : Curr) (k : Nat),
    (∀ p ∈ props, WfProp m p ∧ p ≠ "channel") →
    CurrAgrees m curr pool pprobs →
    ∃ enc k', genEncGo m rng props enc0 curr k = Except.ok (enc, curr, k')
  | [], enc0, curr, k, _, _ => ⟨enc0, k, rfl⟩
  | p :: t, enc0, curr, k, hw, hca => by
    obtain ⟨hwf, hp⟩ := hw p (by simp)
    obtain ⟨prob, hprob⟩ := Option.isSome_iff_exists.mp hwf.1
    have hip : includeProp m p rng k = Except.ok (decide (rng k < prob), k + 1) := by
      unfold includeProp
      rw [hprob]
    have hwt : ∀ q ∈ t, WfProp m q ∧ q ≠ "channel" := fun q hq => hw q (by simp [hq])
    cases hdec : decide (rng k < prob) with
    | false =>
      obtain ⟨enc, k', hrec⟩ := genEncGo_ok m rng pool pprobs t enc0 curr (k + 1) hwt hca
      refine ⟨enc, k', ?_⟩
      unfold genEncGo
      rw [hip]
      simp only [exBind_ok, hdec, Bool.false_eq_true, if_false]
      exact hrec
    | true =>
      obtain ⟨v, hv⟩ := sampleProp_ne_channel_ok m curr p rng (k + 1) pool pprobs hca hp hwf
      obtain ⟨enc, k', hrec⟩ :=
        genEncGo_ok m rng pool pprobs t (dictInsert enc0 p v) curr (k + 1 + 1) hwt hca
      refine ⟨enc, k', ?_⟩
      unfold genEncGo
      rw [hip]
      simp only [exBind_ok, hdec, if_true, hv, hrec]

theorem topLoop_ok (m : Model) (rng : Rng) (pool : List String) (pprobs : List ℚ) :
    ∀ (props : List String) (spec : Spec) (curr : Curr) (k : Nat),
    (∀ p ∈ props, WfProp m p ∧ p ≠ "channel" ∧ p ≠ "encoding") →
    CurrAgrees m curr pool pprobs →
    ∃ spec' k', topLoop m rng props spec curr k = Except.ok (spec', curr, k') ∧
      dictLookup spec' "encoding" = dictLookup spec "encoding"
  | [], spec, curr, k, _, _ => ⟨spec, k, rfl, rfl⟩
  | p :: t, spec, curr, k, hw, hca => by
    obtain ⟨hwf, hp, hpe⟩ := hw p (by simp)
    obtain ⟨prob, hprob⟩ := Option.isSome_iff_exists.mp hwf.1
    have hip : includeProp m p rng k = Except.ok (decide (rng k < prob), k + 1) := by
      unfold includeProp
      rw [hprob]
    have hwt : ∀ q ∈ t, WfProp m q ∧ q ≠ "channel" ∧ q ≠ "encoding" :=
      fun q hq => hw q (by simp [hq])
    cases hdec : decide (rng k < prob) with
    | false =>
      obtain ⟨spec', k', hrec, hpre⟩ := topLoop_ok m rng pool pprobs t spec curr (k + 1) hwt hca
      refine ⟨spec', k', ?_, hpre⟩
      unfold topLoop
      rw [hip]
      simp only [exBind_ok, hdec, Bool.false_eq_true, if_false]
      exact hrec
    | true =>
      obtain ⟨v, hv⟩ := sampleProp_ne_channel_ok m curr p rng (k + 1) pool pprobs hca hp hwf
      obtain ⟨spec', k', hrec, hpre⟩ :=
        topLoop_ok m rng pool pprobs t (dictInsert spec p v) curr (k + 1 + 1) hwt hca
      refine ⟨spec', k', ?_, ?_⟩
      · unfold topLoop
        rw [hip]
        simp only [exBind_ok, hdec, if_true, hv, hrec]
      · rw [hpre]
        exact dictLookup_insert_ne spec p "encoding" v (fun hh => hpe hh.symm)

theorem mem_of_mem_eraseIdx {α : Type} :
    ∀ (l : List α) (i : Nat) (c : α), c ∈ l.eraseIdx i → c ∈ l
  | [], i, c, h => by simp [List.eraseIdx] at h
  | a :: t, 0, c, h => by
    simp only [List.eraseIdx] at h
    simp [h]
  | a :: t, i + 1, c, h => by
    simp only [List.eraseIdx] at h
    rcases List.mem_cons.mp h with h | h
    · simp [h]
    · simp [mem_of_mem_eraseIdx t i c h]

theorem nodup_eraseIdx {α : Type} :
    ∀ (l : List α) (i : Nat), l.Nodup → (l.eraseIdx i).Nodup
  | [], i, h => by simpa [List.eraseIdx] using h
  | a :: t, 0, h => by
    simp only [List.eraseIdx]
    exact (List.nodup_cons.mp h).2
  | a :: t, i + 1, h => by
    obtain ⟨h1, h2⟩ := List.nodup_cons.mp h
    simp only [List.eraseIdx]
    exact List.nodup_cons.mpr
      ⟨fun hm => h1 (mem_of_mem_eraseIdx t i a hm), nodup_eraseIdx t i h2⟩

theorem not_mem_eraseIdx_of_nodup {α : Type} :
    ∀ (l : List α) (i : Nat) (c : α), l.Nodup → l.get? i = some c → c ∉ l.eraseIdx i
  | [], i, c, hnd, hg => by simp at hg
  | a :: t, 0, c, hnd, hg => by
    simp only [List.get?, Option.some.injEq] at hg
    subst hg
    simp only [List.eraseIdx]
    exact (List.nodup_cons.mp hnd).1
  | a :: t, i + 1, c, hnd, hg => by
    simp only [List.get?] at hg
    obtain ⟨h1, h2⟩ := List.nodup_cons.mp hnd
    simp only [List.eraseIdx]
    intro hm
    rcases List.mem_cons.mp hm with h | h
    · subst h
      exact h1 (List.get?_mem hg)
    · exact not_mem_eraseIdx_of_nodup t i c h2 hg h

theorem length_eraseIdx_lt {α : Type} :
    ∀ (l : List α) (i : Nat), i < l.length → (l.eraseIdx i).length = l.length - 1
  | [], i, h => by simp at h
  | a :: t, 0, h => by simp [List.eraseIdx]
  | a :: t, i + 1, h => by
    simp only [List.eraseIdx, List.length_cons]
    rw [length_eraseIdx_lt t i (by simpa using h)]
    have : i < t.length := by simpa using h
    omega

theorem dictInsert_not_mem {α : Type} :
    ∀ (d : List (String × α)) (k : String) (v : α), k ∉ dictKeys d →
      dictInsert d k v = d ++ [(k, v)]
  | [], k, v, _ => rfl
  | (k', v') :: t, k, v, h => by
    have hne : k' ≠ k := by
      intro hh
      exact h (by simp [dictKeys, hh])
    have ht : k ∉ dictKeys t := by
      intro hm
      exact h (by simp [dictKeys] at hm ⊢; exact Or.inr hm)
    simp only [dictInsert, if_neg hne, List.cons_append]
    rw [dictInsert_not_mem t k v ht]

theorem dictKeys_append {α : Type} (d e : List (String × α)) :
    dictKeys (d ++ e) = dictKeys d ++ dictKeys e := by
  simp [dictKeys]

theorem dimsLoop_step (m : Model) (rng : Rng)
    (hep : ∀ p ∈ m.encoding_props, WfProp m p ∧ p ≠ "channel")
    (n : Nat) (spec : Spec) (curr : Curr) (k : Nat) (pool : List String) (pprobs : List ℚ)
    (encs : List (String × V))
    (hca : CurrAgrees m curr pool pprobs)
    (hplen : pprobs.length = pool.length)
    (henc : dictLookup spec "encoding" = some (V.obj encs))
    (hpne : pool ≠ []) :
    ∃ enc c i k1,
      pool.get? i = some c ∧ i < pool.length ∧
      dimsLoop m rng (n + 1) spec curr k
        = dimsLoop m rng n
            (dictInsert spec "encoding" (V.obj (dictInsert encs c (V.obj enc))))
            ⟨dictInsert curr.enums "channel" (pool.eraseIdx i),
             dictInsert curr.probs "channel" (pprobs.eraseIdx i)⟩ (k1 + 1) := by
  obtain ⟨enc, k1, hge⟩ := genEncGo_ok m rng pool pprobs m.encoding_props [] curr k hep hca
  have hge' : genEnc m rng curr k = Except.ok (enc, curr, k1) := hge
  have hppne : pprobs ≠ [] := by
    intro h
    have h0 : pool.length = 0 := by rw [← hplen, h]; rfl
    exact hpne (List.length_eq_zero.mp h0)
  obtain ⟨c, i, hs, hi, hg⟩ := sample_ok pool pprobs (rng k1) hppne (le_of_eq hplen)
  have hse : sampleEnum curr "channel" rng k1
      = Except.ok (c, ⟨dictInsert curr.enums "channel" (pool.eraseIdx i),
          dictInsert curr.probs "channel" (pprobs.eraseIdx i)⟩, k1 + 1) := by
    unfold sampleEnum
    simp only [hca.2.2.1, hca.2.2.2, hs, exBind_ok]
    simp
  refine ⟨enc, c, i, k1, hg, by omega, ?_⟩
  simp only [dimsLoop]
  rw [hge']
  simp only [exBind_ok, hse, henc]

theorem dimsLoop_ok (m : Model) (rng : Rng)
    (hep : ∀ p ∈ m.encoding_props, WfProp m p ∧ p ≠ "channel") :
    ∀ (n : Nat) (spec : Spec) (curr : Curr) (k : Nat) (pool : List String) (pprobs : List ℚ)
      (encs : List (String × V)),
    CurrAgrees m curr pool pprobs →
    pprobs.length = pool.length →
    pool.Nodup →
    dictLookup spec "encoding" = some (V.obj encs) →
    (∀ c ∈ dictKeys encs, c ∉ pool) →
    (dictKeys encs).Nodup →
    n ≤ pool.length →
    ∃ spec' curr' k' encs', dimsLoop m rng n spec curr k = Except.ok (spec', curr', k') ∧
      dictLookup spec' "encoding" = some (V.obj encs') ∧
      encs'.length = encs.length + n ∧ (dictKeys encs').Nodup
  | 0, spec, curr, k, pool, pprobs, encs, _, _, _, henc, _, hknd, _ =>
    ⟨spec, curr, k, encs, rfl, henc, rfl, hknd⟩
  | n + 1, spec, curr, k, pool, pprobs, encs, hca, hplen, hnd, henc, hdisj, hknd, hn => by
    have hpne : pool ≠ [] := by
      intro h
      rw [h] at hn
      simp at hn
    obtain ⟨enc, c, i, k1, hg, hi, hstep⟩ :=
      dimsLoop_step m rng hep n spec curr k pool pprobs encs hca hplen henc hpne
    have hcmem : c ∈ pool := List.get?_mem hg
    have hcnot : c ∉ dictKeys encs := fun hm => hdisj c hm hcmem
    have hins : dictInsert encs c (V.obj enc) = encs ++ [(c, V.obj enc)] :=
      dictInsert_not_mem _ _ _ hcnot
    have hca' : CurrAgrees m ⟨dictInsert curr.enums "channel" (pool.eraseIdx i),
        dictInsert curr.probs "channel" (pprobs.eraseIdx i)⟩
        (pool.eraseIdx i) (pprobs.eraseIdx i) := by
      refine ⟨?_, ?_, dictLookup_insert_self _ _ _, dictLookup_insert_self _ _ _⟩
      · intro p hp
        rw [dictLookup_insert_ne _ _ _ _ hp]
        exact hca.1 p hp
      · intro p hp
        rw [dictLookup_insert_ne _ _ _ _ hp]
        exact hca.2.1 p hp
    have hplen' : (pprobs.eraseIdx i).length = (pool.eraseIdx i).length := by
      rw [length_eraseIdx_lt pool i hi, length_eraseIdx_lt pprobs i (by omega), hplen]
    have hdisj' : ∀ x ∈ dictKeys (dictInsert encs c (V.obj enc)), x ∉ pool.eraseIdx i := by
      intro x hx hm
      rw [hins, dictKeys_append] at hx
      rcases List.mem_append.mp hx with hx | hx
      · exact hdisj x hx (mem_of_mem_eraseIdx pool i x hm)
      · have : x = c := by simpa [dictKeys] using hx
        subst this
        exact not_mem_eraseIdx_of_nodup pool i x hnd hg hm
    have hknd' : (dictKeys (dictInsert encs c (V.obj enc))).Nodup := by
      rw [hins, dictKeys_append]
      simp only [List.nodup_append]
      refine ⟨hknd, by simp [dictKeys], ?_⟩
      intro x hx
      simp [dictKeys]
      intro hxc
      exact hcnot (hxc ▸ hx)
    have hn' : n ≤ (pool.eraseIdx i).length := by
      rw [length_eraseIdx_lt pool i hi]
      omega
    obtain ⟨spec', curr', k', encs', hrun, henc', hlen', hknd''⟩ :=
      dimsLoop_ok m rng hep n
        (dictInsert spec "encoding" (V.obj (dictInsert encs c (V.obj enc))))
        ⟨dictInsert curr.enums "channel" (pool.eraseIdx i),
         dictInsert curr.probs "channel" (pprobs.eraseIdx i)⟩
        (k1 + 1) (pool.eraseIdx i) (pprobs.eraseIdx i) (dictInsert encs c (V.obj enc))
        hca' hplen' (nodup_eraseIdx pool i hnd) (dictLookup_insert_self _ _ _)
        hdisj' hknd' hn'
    refine ⟨spec', curr', k', encs', ?_, henc', ?_, hknd''⟩
    · rw [hstep]
      exact hrun
    · rw [hlen', hins]
      simp
      omega

theorem dimsLoop_exhausts (m : Model) (rng : Rng)
    (hep : ∀ p ∈ m.encoding_props, WfProp m p ∧ p ≠ "channel") :
    ∀ (n : Nat) (spec : Spec) (curr : Curr) (k : Nat) (pool : List String) (pprobs : List ℚ)
      (encs : List (String × V)),
    CurrAgrees m curr pool pprobs →
    pprobs.length = pool.length →
    dictLookup spec "encoding" = some (V.obj encs) →
    pool.length < n →
    dimsLoop m rng n spec curr k = Except.error Err.emptyDomain
  | 0, _, _, _, pool, _, _, _, _, _, hlt => by omega
  | n + 1, spec, curr, k, pool, pprobs, encs, hca, hplen, henc, hlt => by
    cases pool with
    | nil =>
      obtain ⟨enc, k1, hge⟩ :=
        genEncGo_ok m rng [] pprobs m.encoding_props [] curr k hep hca
      have hge' : genEnc m rng curr k = Except.ok (enc, curr, k1) := hge
      have hpprobs : pprobs = [] := List.length_eq_zero.mp (by rw [hplen]; rfl)
      subst hpprobs
      have hse : sampleEnum curr "channel" rng k1 = Except.error Err.emptyDomain := by
        unfold sampleEnum
        simp only [hca.2.2.1, hca.2.2.2]
        rfl
      simp only [dimsLoop]
      rw [hge']
      simp only [exBind_ok, hse, exBind_err]
    | cons a t =>
      obtain ⟨enc, c, i, k1, hg, hi, hstep⟩ :=
        dimsLoop_step m rng hep n spec curr k (a :: t) pprobs encs hca hplen henc (by simp)
      rw [hstep]
      have hca' : CurrAgrees m ⟨dictInsert curr.enums "channel" ((a :: t).eraseIdx i),
          dictInsert curr.probs "channel" (pprobs.eraseIdx i)⟩
          ((a :: t).eraseIdx i) (pprobs.eraseIdx i) := by
        refine ⟨?_, ?_, dictLookup_insert_self _ _ _, dictLookup_insert_self _ _ _⟩
        · intro p hp
          rw [dictLookup_insert_ne _ _ _ _ hp]
          exact hca.1 p hp
        · intro p hp
          rw [dictLookup_insert_ne _ _ _ _ hp]
          exact hca.2.1 p hp
      have hplen' : (pprobs.eraseIdx i).length = ((a :: t).eraseIdx i).length := by
        rw [length_eraseIdx_lt (a :: t) i hi, length_eraseIdx_lt pprobs i (by omega), hplen]
      have hlt' : ((a :: t).eraseIdx i).length < n := by
        rw [length_eraseIdx_lt (a :: t) i hi]
        simp only [List.length_cons] at hlt ⊢
        omega
      exact dimsLoop_exhausts m rng hep n _ _ (k1 + 1) ((a :: t).eraseIdx i)
        (pprobs.eraseIdx i) (dictInsert encs c (V.obj enc)) hca' hplen'
        (dictLookup_insert_self _ _ _) hlt'

/-- C6: for every n not exceeding the number of channel enum values,
generate_spec(n) succeeds and returns a spec whose encoding map holds
exactly n entries under distinct channel keys: each channel draw pops
the chosen entry from the working enum and weight pools, so no channel
can be drawn twice within one call. Hypotheses: the channel lists exist,
have equal length and no duplicate names; every top-level and encoding
prop has a well-formed distribution entry and is named neither channel
nor encoding (so those pools are not consumed and the encoding dict is
not clobbered). The randomness stream is arbitrary. -/
theorem c6_generate_spec_distinct_channels (m : Model) (rng : Rng) (n k : Nat)
    (chans : List String) (cprobs : List ℚ)
    (hch : dictLookup m.enums "channel" = some chans)
    (hcp : dictLookup m.probs "channel" = some cprobs)
    (hlen : cprobs.length = chans.length)
    (hnd : chans.Nodup)
    (hn : n ≤ chans.length)
    (htl : ∀ p ∈ m.top_level_props, WfProp m p ∧ p ≠ "channel" ∧ p ≠ "encoding")
    (hep : ∀ p ∈ m.encoding_props, WfProp m p ∧ p ≠ "channel") :
    ∃ spec k' encs, generateSpec m rng n k = Except.ok (spec, k') ∧
      dictLookup spec "encoding" = some (V.obj encs) ∧
      encs.length = n ∧ (dictKeys encs).Nodup := by
  have hca0 : CurrAgrees m ⟨m.enums, m.probs⟩ chans cprobs :=
    ⟨fun _ _ => rfl, fun _ _ => rfl, hch, hcp⟩
  obtain ⟨spec1, k1, htop, hpre⟩ := topLoop_ok m rng chans cprobs m.top_level_props
    [("encoding", V.obj [])] ⟨m.enums, m.probs⟩ k htl hca0
  have henc1 : dictLookup spec1 "encoding" = some (V.obj []) := by
    rw [hpre]
    rfl
  obtain ⟨spec', curr', k', encs', hrun, henc', hlen', hknd'⟩ :=
    dimsLoop_ok m rng hep n spec1 ⟨m.enums, m.probs⟩ k1 chans cprobs [] hca0 hlen hnd henc1
      (by simp [dictKeys]) (by simp [dictKeys]) hn
  refine ⟨spec', k', encs', ?_, henc', by simpa using hlen', hknd'⟩
  unfold generateSpec
  simp only [htop, exBind_ok, hrun]

theorem c6_witness :
    2 ≤ (["x", "y"] : List String).length ∧
      ∃ spec k' encs, generateSpec twoChannelModel (fun _ => 0) 2 0 = Except.ok (spec, k') ∧
        dictLookup spec "encoding" = some (V.obj encs) ∧
        encs.length = 2 ∧ (dictKeys encs).Nodup :=
  ⟨by decide,
    c6_generate_spec_distinct_channels twoChannelModel (fun _ => 0) 2 0 ["x", "y"]
      [1/2, 1/2] rfl rfl rfl (by decide) (by decide) (by simp [twoChannelModel])
      (by simp [twoChannelModel])⟩

/-- C7: when the requested dimension count exceeds the number of channel
enum values, generate_spec fails with the exhausted-domain error (the
empty-pool failure of Model.sample, i.e. the IndexError on
cumulative[-1]) at the point the channel pool is depleted, rather than
silently reusing a channel or returning a spec. Hypotheses as in the
distinct-channels theorem, without needing duplicate-freedom. -/
theorem c7_generate_spec_exhausts_channel_pool (m : Model) (rng : Rng) (n k : Nat)
    (chans : List String) (cprobs : List ℚ)
    (hch : dictLookup m.enums "channel" = some chans)
    (hcp : dictLookup m.probs "channel" = some cprobs)
    (hlen : cprobs.length = chans.length)
    (hn : chans.length < n)
    (htl : ∀ p ∈ m.top_level_props, WfProp m p ∧ p ≠ "channel" ∧ p ≠ "encoding")
    (hep : ∀ p ∈ m.encoding_props, WfProp m p ∧ p ≠ "channel") :
    generateSpec m rng n k = Except.error Err.emptyDomain := by
  have hca0 : CurrAgrees m ⟨m.enums, m.probs⟩ chans cprobs :=
    ⟨fun _ _ => rfl, fun _ _ => rfl, hch, hcp⟩
  obtain ⟨spec1, k1, htop, hpre⟩ := topLoop_ok m rng chans cprobs m.top_level_props
    [("encoding", V.obj [])] ⟨m.enums, m.probs⟩ k htl hca0
  have henc1 : dictLookup spec1 "encoding" = some (V.obj []) := by
    rw [hpre]
    rfl
  have hex := dimsLoop_exhausts m rng hep n spec1 ⟨m.enums, m.probs⟩ k1 chans cprobs []
    hca0 hlen henc1 hn
  unfold generateSpec
  simp only [htop, exBind_ok, hex, exBind_err]

theorem c7_witness :
    (["x", "y"] : List String).length < 3 ∧
      generateSpec twoChannelModel (fun _ => 0) 3 0 = Except.error Err.emptyDomain :=
  ⟨by decide,
    c7_generate_spec_exhausts_channel_pool twoChannelModel (fun _ => 0) 3 0 ["x", "y"]
      [1/2, 1/2] rfl rfl rfl (by decide) (by simp [twoChannelModel])
      (by simp [twoChannelModel])⟩

/-- C5 (amended): mutating channel to an enum value that already appears
as a used channel key skips the channel-rename branch, and the call
never changes the spec's encoding entry (given no channel is literally
named encoding); but it is not a successful no-op: the call falls
through to the remaining branches, which raise invalid-prop or the
missing-key error of the encoding-prop branch, or set a top-level
channel entry when channel is declared top-level. Whenever the call does
return normally, the spec's encoding entry is unchanged. -/
theorem c5_amended_used_channel_preserves_encoding (m : Model) (spec : Spec)
    (encs : List (String × V)) (enum : String) (rng : Rng) (k : Nat) (r : Spec × Nat)
    (henc : dictLookup spec "encoding" = some (V.obj encs))
    (hused : dictContains encs enum = true)
    (hname : dictContains encs "encoding" = false)
    (hok : mutateProp m spec "channel" enum rng k = Except.ok r) :
    dictLookup r.1 "encoding" = dictLookup spec "encoding" := by
  unfold mutateProp at hok
  by_cases htl : "channel" ∈ m.top_level_props
  · rw [if_pos htl] at hok
    simp only [Except.ok.injEq] at hok
    subst hok
    exact dictLookup_insert_ne spec "channel" "encoding" _ (by decide)
  · rw [if_neg htl, if_pos rfl] at hok
    simp only [henc] at hok
    rw [if_pos hused] at hok
    unfold mutatePropEnc at hok
    by_cases hepp : "channel" ∈ m.encoding_props
    · rw [if_pos hepp] at hok
      simp only [henc] at hok
      obtain ⟨probs, hp, hok⟩ := exBindOk hok
      obtain ⟨tm, hsm, hok⟩ := exBindOk hok
      obtain ⟨enc, hl, hok⟩ := exBindOk hok
      obtain ⟨c0, i0⟩ := tm
      have htm : c0 ∈ dictKeys encs := List.get?_mem (sample_eq_get hsm)
      have hne2 : c0 ≠ "encoding" := by
        intro hh
        subst hh
        have hsome := dictLookup_isSome_of_mem_keys encs "encoding" htm
        unfold dictContains at hname
        rw [hname] at hsome
        exact Bool.noConfusion hsome
      cases enc with
      | obj l =>
        simp only [Except.ok.injEq] at hok
        subst hok
        exact dictLookup_insert_ne spec c0 "encoding" _ (Ne.symm hne2)
      | str s => exact Except.noConfusion hok
      | bool b => exact Except.noConfusion hok
    · rw [if_neg hepp] at hok
      exact Except.noConfusion hok

theorem c5_amended_witness :
    dictContains [("x", V.obj [("type", V.str "quantitative")])] "x" = true ∧
      dictLookup ((([("encoding", V.obj [("x", V.obj [("type", V.str "quantitative")])]),
          ("channel", V.str "x")] : Spec), 0) : Spec × Nat).1 "encoding"
        = dictLookup xOnlySpec "encoding" :=
  ⟨rfl,
    c5_amended_used_channel_preserves_encoding chanTLModel xOnlySpec
      [("x", V.obj [("type", V.str "quantitative")])] "x" (fun _ => 0) 0
      ([("encoding", V.obj [("x", V.obj [("type", V.str "quantitative")])]),
        ("channel", V.str "x")], 0)
      rfl rfl rfl (by with_unfolding_all rfl)⟩

theorem foldlM_nil_ex {α σ : Type} (f : σ → α → Except Err σ) (s : σ) :
    ([] : List α).foldlM f s = Except.ok s := rfl

theorem foldlM_cons_ex {α σ : Type} (f : σ → α → Except Err σ) (a : α) (t : List α) (s : σ) :
    (a :: t).foldlM f s = f s a >>= fun s' => t.foldlM f s' := rfl

theorem readList_writeList_ne :
    ∀ (lists : List (List String)) (r j : Nat) (xs : List String), j ≠ r →
      readList (writeList ⟨lists⟩ r xs) j = readList ⟨lists⟩ j
  | [], r, j, xs, _ => by simp [readList, writeList]
  | a :: t, 0, 0, xs, h => absurd rfl h
  | a :: t, 0, j + 1, xs, _ => by simp [readList, writeList, List.set]
  | a :: t, r + 1, 0, xs, _ => by simp [readList, writeList, List.set]
  | a :: t, r + 1, j + 1, xs, h => by
    have := readList_writeList_ne t r j xs (fun hh => h (by omega))
    simpa [readList, writeList, List.set] using this

theorem mutateSpecGo_frame (m : Model) (valid : Query → Bool) (rng : Rng) :
    ∀ (fuel : Nat) (base : Spec) (ref : Nat) (st out : MSt),
    mutateSpecGo m valid rng fuel base ref st = Except.ok out →
    ∀ j, j ≠ ref → readList out.store j = readList st.store j
  | 0, _, _, _, _, h => Except.noConfusion h
  | fuel + 1, base, ref, st, out, h => by
    rw [mutateSpecGo] at h
    cases hrl : readList st.store ref with
    | nil =>
      simp only [hrl] at h
      obtain ⟨f, _, h⟩ := exBindOk h
      simp only [Except.ok.injEq] at h
      subst h
      intro j _
      rfl
    | cons p rest =>
      simp only [hrl] at h
      obtain ⟨es, _, h⟩ := exBindOk h
      intro j hj
      have key : ∀ (es' : List String) (st' out' : MSt),
          (es'.foldlM (fun acc e => do
              let r ← mutateProp m base p e rng acc.k
              mutateSpecGo m valid rng fuel r.1 ref { acc with k := r.2 }) st')
            = Except.ok out' →
          readList out'.store j = readList st'.store j := by
        intro es'
        induction es' with
        | nil =>
          intro st' out' hfo
          rw [foldlM_nil_ex] at hfo
          simp only [Except.ok.injEq] at hfo
          subst hfo
          rfl
        | cons e es'' ih =>
          intro st' out' hfo
          rw [foldlM_cons_ex] at hfo
          obtain ⟨st'', hst'', hfo⟩ := exBindOk hfo
          obtain ⟨r, _, hgo⟩ := exBindOk hst''
          have h1 := mutateSpecGo_frame m valid rng fuel r.1 ref _ _ hgo j hj
          rw [ih st'' out' hfo, h1]
      rw [key es _ out h]
      obtain ⟨lists⟩ := st.store
      exact readList_writeList_ne lists ref j rest hj

/-- C10: generate_interaction never mutates the caller's props list:
the source hands props.copy() to the recursive enumeration, modelled
here as allocating a fresh store slot holding the same elements, and
the recursion pops from that fresh slot only. After a successful call,
reading the caller's slot from the final store yields exactly the list
it held before the call. -/
theorem c10_props_list_not_mutated (m : Model) (valid : Query → Bool) (rng : Rng)
    (dims callerRef : Nat) (store0 : Store)
    (hcall : callerRef < store0.lists.length) :
    (generateInteraction m valid rng dims callerRef store0).map (fun r => readList r.1 callerRef)
      = (generateInteraction m valid rng dims callerRef store0).map
          (fun _ => readList store0 callerRef) := by
  cases hgen : generateInteraction m valid rng dims callerRef store0 with
  | error e => rfl
  | ok r =>
    simp only [Except.map]
    congr 1
    unfold generateInteraction at hgen
    obtain ⟨b, _, hgen⟩ := exBindOk hgen
    obtain ⟨st, hst, hgen⟩ := exBindOk hgen
    simp only [Except.ok.injEq] at hgen
    subst hgen
    have hne : callerRef ≠ store0.lists.length := by omega
    have hframe := mutateSpecGo_frame m valid rng
      ((readList store0 callerRef).length + 1) b.1 store0.lists.length
      ⟨⟨store0.lists ++ [readList store0 callerRef]⟩, [], 0, b.2⟩ st hst callerRef hne
    rw [hframe]
    show (store0.lists ++ [readList store0 callerRef]).getD callerRef [] = readList store0 callerRef
    rw [List.getD_append _ _ _ _ hcall]
    rfl

theorem c10_witness :
    0 < (Store.mk [["mark"]]).lists.length ∧
      (generateInteraction twoPropModel (fun _ => true) (fun _ => 1) 0 0 ⟨[["mark"]]⟩).map
          (fun r => readList r.1 0)
        = (generateInteraction twoPropModel (fun _ => true) (fun _ => 1) 0 0 ⟨[["mark"]]⟩).map
            (fun _ => readList ⟨[["mark"]]⟩ 0) :=
  ⟨by decide,
    c10_props_list_not_mutated twoPropModel (fun _ => true) (fun _ => 1) 0 0 ⟨[["mark"]]⟩
      (by decide)⟩

end Theorems

end Draco
